import Mathlib

/-!
# Verification of `api/catalog/api/utils/waveform.py`

Shallow embedding of the waveform utility module. Modelling conventions:

* Python strings are embedded as `List Char`.
* Python integers are embedded as `ℤ`, Python's true division and `round`
  results as exact rationals `ℚ`.
* Python's `round(x, 5)` (round-half-to-even at 5 decimal digits) is embedded
  as `round5`, exact on `ℚ`.
* Code that can raise returns `Option`: `none` marks a raised exception.
* The HTTP response and `mimetypes.guess_extension` are external to the
  module; `download_audio` takes the guessed extension for the response's
  `content-type` as an explicit `Option (List Char)` parameter.
* The filesystem visible to `cleanup` is a predicate `List Char → Bool`
  telling which file names currently exist under the temp root.
-/

set_option autoImplicit false

namespace Waveform

/-- One step of Python's `str.split(sep)` for a single-character separator:
`acc` holds the (reversed) characters of the current fragment. -/
def splitAux (sep : Char) : List Char → List Char → List (List Char)
  | [], acc => [acc.reverse]
  | c :: cs, acc =>
    if c = sep then acc.reverse :: splitAux sep cs []
    else splitAux sep cs (c :: acc)

/-- Python's `str.split(sep)` for a single-character separator. Always returns
a non-empty list of fragments. -/
def splitOn (sep : Char) (s : List Char) : List (List Char) :=
  splitAux sep s []

/-- Python's `lst[-1]` on a list known to be non-empty (the default `[]` is
unreachable for results of `splitOn`). -/
def pyLast : List (List Char) → List Char
  | [] => []
  | [x] => x
  | _ :: x :: xs => pyLast (x :: xs)

/-- `ext_from_url` from the source: take the last `/`-separated part of the
URL; if it contains a `.`, return `"." + (text after the last ".")`, else
`None`. -/
def ext_from_url (url : List Char) : Option (List Char) :=
  let file_name := pyLast (splitOn '/' url)
  if '.' ∈ file_name then
    some ('.' :: pyLast (splitOn '.' file_name))
  else
    none

/-- Python truthiness of an optional string: `None` and `""` are falsy. -/
def pyFalsy : Option (List Char) → Bool
  | none => true
  | some s => s.isEmpty

/-- Python's `a or b` on optional strings. -/
def pyOr (a b : Option (List Char)) : Option (List Char) :=
  if pyFalsy a then b else a

/-- `download_audio` from the source, restricted to its pure content: the
choice of extension and the produced file name. `guessed` is the result of
`mimetypes.guess_extension` on the response's `content-type` header. `none`
models the `ValueError` raised when no extension can be determined; in that
case nothing is written. -/
def download_audio (url identifier : List Char) (guessed : Option (List Char)) :
    Option (List Char) :=
  match pyOr (ext_from_url url) guessed with
  | none => none
  | some ext => some ("audio-".toList ++ identifier ++ ext)

/-- Floor of a rational, written out computably (provably equal to `⌊q⌋`,
see `ratFloor_eq`). -/
def ratFloor (q : ℚ) : ℤ := q.num / q.den

/-- Ceiling of a rational, written out computably (provably equal to `⌈q⌉`,
see `ratCeil_eq`). -/
def ratCeil (q : ℚ) : ℤ := -ratFloor (-q)

/-- The `pixels_per_second` value computed by `generate_waveform`:
`math.ceil(1e6 / duration)`. -/
def generate_waveform_pps (duration : ℚ) : ℤ :=
  ratCeil ((1000000 : ℚ) / duration)

/-- The argument vector `generate_waveform` passes to `subprocess.run`. -/
def generate_waveform_args (file_name : List Char) (duration : ℚ) :
    List (List Char) :=
  [ "audiowaveform".toList,
    "--input-filename".toList, file_name,
    "--output-format".toList, "json".toList,
    "--pixels-per-second".toList, (toString (generate_waveform_pps duration)).toList ]

/-- Round-half-to-even of a rational to the nearest integer, the rule used by
Python's builtin `round`. -/
def roundHalfEven (q : ℚ) : ℤ :=
  if q - ratFloor q < 1 / 2 then ratFloor q
  else if 1 / 2 < q - ratFloor q then ratFloor q + 1
  else if ratFloor q % 2 = 0 then ratFloor q else ratFloor q + 1

/-- Python's `round(q, 5)` on exact rationals. -/
def round5 (q : ℚ) : ℚ :=
  (roundHalfEven (q * 100000) : ℚ) / 100000

/-- The loop of `process_waveform_output`: walk `data` with the running index
and running maximum, skip even indices, collect odd-indexed values and track
the largest value seen (starting from `0`). Returns
(`transformed_data`, final `max_val`). -/
def waveformScan : List ℤ → ℕ → ℤ → List ℤ × ℤ
  | [], _, maxVal => ([], maxVal)
  | val :: rest, idx, maxVal =>
    if idx % 2 = 0 then waveformScan rest (idx + 1) maxVal
    else
      let maxVal' := if val > maxVal then val else maxVal
      let r := waveformScan rest (idx + 1) maxVal'
      (val :: r.1, r.2)

/-- `process_waveform_output` from the source, taking the already-parsed
`data` array. The final list comprehension divides each retained value by
`max_val`; when `max_val = 0` and at least one division is attempted, Python
raises `ZeroDivisionError`, modelled as `none`. -/
def process_waveform_output (data : List ℤ) : Option (List ℚ) :=
  match waveformScan data 0 0 with
  | (transformed, maxVal) =>
    match transformed with
    | [] => some []
    | _ :: _ =>
      if maxVal = 0 then none
      else some (transformed.map (fun (val : ℤ) => round5 ((val : ℚ) / (maxVal : ℚ))))

/-- `cleanup` from the source: delete the file if it exists, else do
nothing. The filesystem is the predicate of existing file names. -/
def cleanup (fs : List Char → Bool) (file_name : List Char) :
    List Char → Bool :=
  if fs file_name then (fun f => if f = file_name then false else fs f) else fs

/-! ## Spec-side definitions -/

/-- Spec reading of the Extension Resolver's segment step, deliberately not
via `splitOn`: scanning the reversed string, take characters up to the first
occurrence of `sep`. -/
def afterLastAux (sep : Char) : List Char → List Char
  | [] => []
  | c :: cs => if c = sep then [] else c :: afterLastAux sep cs

/-- "Everything after the last occurrence of `sep`" (the whole string when
`sep` does not occur). -/
def afterLast (sep : Char) (s : List Char) : List Char :=
  (afterLastAux sep s.reverse).reverse

/-- The values sitting at odd indices of `data`, stated through `enum` the
way the claim reads ("retains exactly the odd-indexed entries"). -/
def oddIndexed (data : List ℤ) : List ℤ :=
  (data.enum.filter (fun p => p.1 % 2 = 1)).map Prod.snd

/-- Rescale each entry by `M`, rounding to 5 decimal digits. -/
def rescale (M : ℤ) (l : List ℤ) : List ℚ :=
  l.map (fun (v : ℤ) => round5 ((v : ℚ) / (M : ℚ)))

/-- `M` is the maximum of the list `l`. -/
def isMaxOf (M : ℤ) (l : List ℤ) : Prop :=
  M ∈ l ∧ ∀ v ∈ l, v ≤ M

/-- Every entry of `l` is nonnegative. -/
def allNonneg (l : List ℤ) : Prop := ∀ v ∈ l, 0 ≤ v

/-- Some entry of `l` is strictly positive. -/
def hasPos (l : List ℤ) : Prop := ∃ v ∈ l, 0 < v

/-- Every entry of `l` is zero. -/
def allZero (l : List ℤ) : Prop := ∀ v ∈ l, v = 0

/-- Alternating selector: with flag `true` keep the head and flip, with flag
`false` drop the head and flip. `takeAlt false` selects odd positions. -/
def takeAlt : Bool → List ℤ → List ℤ
  | _, [] => []
  | false, _ :: rest => takeAlt true rest
  | true, v :: rest => v :: takeAlt false rest

instance (M : ℤ) (l : List ℤ) : Decidable (isMaxOf M l) :=
  inferInstanceAs (Decidable (M ∈ l ∧ ∀ v ∈ l, v ≤ M))

instance (l : List ℤ) : Decidable (allNonneg l) :=
  inferInstanceAs (Decidable (∀ v ∈ l, 0 ≤ v))

instance (l : List ℤ) : Decidable (hasPos l) :=
  inferInstanceAs (Decidable (∃ v ∈ l, 0 < v))

instance (l : List ℤ) : Decidable (allZero l) :=
  inferInstanceAs (Decidable (∀ v ∈ l, v = 0))

/-! ## Sample data used by witnesses -/

/-- A filesystem on which exactly the downloaded sample file exists. -/
def sampleFS : List Char → Bool :=
  fun f => f == "audio-abc123.mp3".toList

/-- The sample file name. -/
def sampleName : List Char := "audio-abc123.mp3".toList

/-- A file name absent from `sampleFS`. -/
def missingName : List Char := "audio-zzz.ogg".toList

/-! ## Lemmas: floor, ceiling and rounding -/

lemma ratFloor_eq (q : ℚ) : ratFloor q = ⌊q⌋ :=
  (Rat.floor_def).symm

lemma ratCeil_eq (q : ℚ) : ratCeil q = ⌈q⌉ := by
  rw [ratCeil, ratFloor_eq, Int.floor_neg, neg_neg]

lemma roundHalfEven_intCast (n : ℤ) : roundHalfEven (n : ℚ) = n := by
  rw [roundHalfEven, ratFloor_eq, Int.floor_intCast]
  norm_num

lemma floor_le_roundHalfEven (q : ℚ) : ⌊q⌋ ≤ roundHalfEven q := by
  rw [roundHalfEven, ratFloor_eq]
  split
  · exact le_refl _
  · split
    · omega
    · split <;> omega

lemma roundHalfEven_le {q : ℚ} {n : ℤ} (h : q ≤ (n : ℚ)) : roundHalfEven q ≤ n := by
  have hfl : ⌊q⌋ ≤ n := by
    have h2 := Int.floor_le_floor h
    rwa [Int.floor_intCast] at h2
  have hstep : ¬(q - (⌊q⌋ : ℚ) < 1 / 2) → ⌊q⌋ + 1 ≤ n := by
    intro hge
    have h1 : (⌊q⌋ : ℚ) + 1 / 2 ≤ q := by
      have := not_lt.mp hge
      linarith
    have h2 : (⌊q⌋ : ℚ) < (n : ℚ) := by linarith
    have h3 : ⌊q⌋ < n := by exact_mod_cast h2
    omega
  rw [roundHalfEven, ratFloor_eq]
  split
  · exact hfl
  · rename_i hge
    split
    · exact hstep hge
    · split
      · exact hfl
      · exact hstep hge

lemma roundHalfEven_nonneg {q : ℚ} (h : 0 ≤ q) : 0 ≤ roundHalfEven q := by
  have h1 : (0 : ℤ) ≤ ⌊q⌋ := Int.floor_nonneg.mpr h
  have h2 := floor_le_roundHalfEven q
  omega

lemma round5_eq_of_mul (q : ℚ) (k : ℤ) (h : q * 100000 = (k : ℚ)) :
    round5 q = (k : ℚ) / 100000 := by
  rw [round5, h, roundHalfEven_intCast]

lemma round5_one : round5 1 = 1 := by
  have h : (1 : ℚ) * 100000 = ((100000 : ℤ) : ℚ) := by norm_num
  rw [round5_eq_of_mul 1 100000 h]
  norm_num

lemma round5_nonneg {q : ℚ} (h : 0 ≤ q) : 0 ≤ round5 q := by
  rw [round5]
  apply div_nonneg _ (by norm_num)
  have h1 : (0 : ℤ) ≤ roundHalfEven (q * 100000) :=
    roundHalfEven_nonneg (by positivity)
  exact_mod_cast h1

lemma round5_le_one {q : ℚ} (h : q ≤ 1) : round5 q ≤ 1 := by
  rw [round5, div_le_one (by norm_num)]
  have hq : q * 100000 ≤ ((100000 : ℤ) : ℚ) := by
    have h2 := mul_le_mul_of_nonneg_right h (by norm_num : (0 : ℚ) ≤ 100000)
    rw [one_mul] at h2
    exact h2.trans_eq (by norm_num)
  have h1 : roundHalfEven (q * 100000) ≤ (100000 : ℤ) := roundHalfEven_le hq
  exact_mod_cast h1

/-! ## Lemmas: the odd-index selection and the running maximum -/

lemma takeAlt_enumFrom (data : List ℤ) : ∀ n : ℕ,
    takeAlt (n % 2 == 1) data
      = ((List.enumFrom n data).filter (fun p => p.1 % 2 = 1)).map Prod.snd := by
  induction data with
  | nil => intro n; simp [takeAlt, List.enumFrom]
  | cons v rest ih =>
    intro n
    rcases Nat.mod_two_eq_zero_or_one n with h | h
    · have h1 : (n + 1) % 2 = 1 := by omega
      have h2 := ih (n + 1)
      rw [h1] at h2
      simp [List.enumFrom, List.filter_cons, h, takeAlt]
      simpa using h2
    · have h1 : (n + 1) % 2 = 0 := by omega
      have h2 := ih (n + 1)
      rw [h1] at h2
      simp [List.enumFrom, List.filter_cons, h, takeAlt]
      simpa using h2

lemma oddIndexed_eq_takeAlt (data : List ℤ) : oddIndexed data = takeAlt false data := by
  have h := takeAlt_enumFrom data 0
  simpa [oddIndexed, List.enum] using h.symm

lemma takeAlt_length : ∀ l : List ℤ,
    (takeAlt false l).length = l.length / 2
      ∧ (takeAlt true l).length = (l.length + 1) / 2 := by
  intro l
  induction l with
  | nil => simp [takeAlt]
  | cons v rest ih =>
    obtain ⟨h1, h2⟩ := ih
    constructor
    · simpa [takeAlt] using h2
    · simp only [takeAlt, List.length_cons, h1]
      omega

lemma oddIndexed_length (data : List ℤ) : (oddIndexed data).length = data.length / 2 := by
  rw [oddIndexed_eq_takeAlt]
  exact (takeAlt_length data).1

lemma waveformScan_eq (data : List ℤ) : ∀ (idx : ℕ) (m : ℤ),
    waveformScan data idx m
      = (takeAlt (idx % 2 == 1) data, (takeAlt (idx % 2 == 1) data).foldl max m) := by
  induction data with
  | nil => intro idx m; simp [waveformScan, takeAlt]
  | cons v rest ih =>
    intro idx m
    rcases Nat.mod_two_eq_zero_or_one idx with h | h
    · have h1 : (idx + 1) % 2 = 1 := by omega
      have h2 := ih (idx + 1) m
      rw [h1] at h2
      simp [waveformScan, h, takeAlt, h2]
    · have h1 : (idx + 1) % 2 = 0 := by omega
      have h2 := ih (idx + 1) (max m v)
      rw [h1] at h2
      have hmax : (if v > m then v else m) = max m v := by
        rcases le_or_lt v m with hvm | hvm
        · rw [if_neg (not_lt.mpr hvm), max_eq_left hvm]
        · rw [if_pos hvm, max_eq_right hvm.le]
      simp [waveformScan, h, hmax, h2, takeAlt]

lemma le_foldl_max : ∀ (l : List ℤ) (m : ℤ), m ≤ l.foldl max m := by
  intro l
  induction l with
  | nil => intro m; exact le_refl m
  | cons v l ih =>
    intro m
    simp only [List.foldl_cons]
    exact le_trans (le_max_left m v) (ih (max m v))

lemma mem_le_foldl_max : ∀ (l : List ℤ) (m v : ℤ), v ∈ l → v ≤ l.foldl max m := by
  intro l
  induction l with
  | nil => intro m v hv; cases hv
  | cons a l ih =>
    intro m v hv
    simp only [List.foldl_cons]
    rcases List.mem_cons.mp hv with rfl | hv2
    · exact le_trans (le_max_right m v) (le_foldl_max l (max m v))
    · exact ih (max m a) v hv2

lemma foldl_max_choice : ∀ (l : List ℤ) (m : ℤ), l.foldl max m = m ∨ l.foldl max m ∈ l := by
  intro l
  induction l with
  | nil => intro m; left; rfl
  | cons a l ih =>
    intro m
    simp only [List.foldl_cons]
    rcases ih (max m a) with h | h
    · rw [h]
      rcases max_choice m a with h2 | h2
      · left; exact h2
      · right; rw [h2]; exact List.mem_cons_self a l
    · right; exact List.mem_cons_of_mem a h

lemma foldl_max_le {l : List ℤ} {m M : ℤ} (hm : m ≤ M) (h : ∀ v ∈ l, v ≤ M) :
    l.foldl max m ≤ M := by
  rcases foldl_max_choice l m with hc | hc
  · rw [hc]; exact hm
  · exact h _ hc

/-! ## Lemmas: characterizing `process_waveform_output` -/

lemma process_eq (data : List ℤ) :
    process_waveform_output data
      = if oddIndexed data = [] then some []
        else if (oddIndexed data).foldl max 0 = 0 then none
        else some (rescale ((oddIndexed data).foldl max 0) (oddIndexed data)) := by
  have hscan := waveformScan_eq data 0 0
  rw [show ((0 : ℕ) % 2 == 1) = false from rfl] at hscan
  rw [← oddIndexed_eq_takeAlt] at hscan
  unfold process_waveform_output
  rw [hscan]
  cases h : oddIndexed data with
  | nil => simp
  | cons a l => simp [rescale]

lemma process_none_iff (data : List ℤ) :
    process_waveform_output data = none
      ↔ (oddIndexed data ≠ [] ∧ ∀ v ∈ oddIndexed data, v ≤ 0) := by
  rw [process_eq]
  cases h : oddIndexed data with
  | nil => simp
  | cons a l =>
    simp only [h, if_neg (List.cons_ne_nil a l)]
    constructor
    · intro h0
      have hfold : (a :: l).foldl max 0 = 0 := by
        by_contra hne
        rw [if_neg hne] at h0
        exact Option.some_ne_none _ h0
      refine ⟨List.cons_ne_nil a l, ?_⟩
      intro v hv
      have := mem_le_foldl_max (a :: l) 0 v hv
      omega
    · rintro ⟨-, hall⟩
      have h1 : (a :: l).foldl max 0 ≤ 0 := foldl_max_le (le_refl 0) hall
      have h2 : (0 : ℤ) ≤ (a :: l).foldl max 0 := le_foldl_max (a :: l) 0
      rw [if_pos (by omega)]

lemma process_of_max {data : List ℤ} {M : ℤ} (hmem : M ∈ oddIndexed data)
    (hub : ∀ v ∈ oddIndexed data, v ≤ M) (hpos : 0 < M) :
    process_waveform_output data = some (rescale M (oddIndexed data)) := by
  have hne : oddIndexed data ≠ [] := by
    intro h
    rw [h] at hmem
    cases hmem
  have hfold : (oddIndexed data).foldl max 0 = M := by
    apply le_antisymm
    · exact foldl_max_le (by omega) hub
    · exact mem_le_foldl_max _ 0 M hmem
  rw [process_eq, if_neg hne, hfold, if_neg (by omega)]

/-! ## Lemmas: splitting and the last segment -/

lemma splitAux_ne_nil (sep : Char) : ∀ (s acc : List Char), splitAux sep s acc ≠ [] := by
  intro s
  induction s with
  | nil => intro acc; simp [splitAux]
  | cons c cs ih =>
    intro acc
    rw [splitAux]
    split
    · simp
    · exact ih (c :: acc)

lemma pyLast_cons (x : List Char) (l : List (List Char)) (h : l ≠ []) :
    pyLast (x :: l) = pyLast l := by
  cases l with
  | nil => exact absurd rfl h
  | cons y ys => rfl

lemma afterLastAux_of_not_mem (sep : Char) : ∀ (l : List Char), sep ∉ l → afterLastAux sep l = l := by
  intro l
  induction l with
  | nil => intro h; rfl
  | cons c cs ih =>
    intro h
    rw [afterLastAux, if_neg, ih (fun hc => h (List.mem_cons_of_mem c hc))]
    intro hc
    exact h (hc ▸ List.mem_cons_self c cs)

lemma afterLastAux_append (sep : Char) : ∀ (l1 l2 : List Char),
    afterLastAux sep (l1 ++ l2)
      = if sep ∈ l1 then afterLastAux sep l1 else l1 ++ afterLastAux sep l2 := by
  intro l1
  induction l1 with
  | nil => intro l2; simp
  | cons c cs ih =>
    intro l2
    by_cases hc : c = sep
    · subst hc
      simp [afterLastAux]
    · have hcs : sep ≠ c := fun h => hc h.symm
      by_cases hmem : sep ∈ cs
      · simp [afterLastAux, hc, ih, hmem, hcs]
      · simp [afterLastAux, hc, ih, hmem, hcs]

lemma pyLast_splitAux (sep : Char) : ∀ (s acc : List Char),
    pyLast (splitAux sep s acc)
      = if sep ∈ s then afterLast sep s else acc.reverse ++ s := by
  intro s
  induction s with
  | nil => intro acc; simp [splitAux, pyLast]
  | cons c cs ih =>
    intro acc
    by_cases hc : c = sep
    · subst hc
      rw [splitAux, if_pos rfl, pyLast_cons _ _ (splitAux_ne_nil c cs []), ih []]
      have hmem : c ∈ c :: cs := List.mem_cons_self c cs
      rw [if_pos hmem]
      have hafter : afterLast c (c :: cs)
          = if c ∈ cs then afterLast c cs else cs := by
        rw [afterLast, List.reverse_cons, afterLastAux_append]
        by_cases h2 : c ∈ cs
        · rw [if_pos (by simpa using h2), if_pos h2, afterLast]
        · rw [if_neg (by simpa using h2), if_neg h2, afterLastAux, if_pos rfl,
            List.append_nil, List.reverse_reverse]
      rw [hafter]
      by_cases h2 : c ∈ cs
      · rw [if_pos h2, if_pos h2]
      · rw [if_neg h2, if_neg h2, List.reverse_nil, List.nil_append]
    · have hcs : sep ≠ c := fun h => hc h.symm
      rw [splitAux, if_neg hc, ih (c :: acc)]
      have hmem : (sep ∈ c :: cs) = (sep ∈ cs) := by simp [hcs]
      by_cases h2 : sep ∈ cs
      · rw [if_pos h2, if_pos (by rw [hmem]; exact h2)]
        rw [afterLast, afterLast, List.reverse_cons, afterLastAux_append,
          if_pos (by simpa using h2)]
      · rw [if_neg h2, if_neg (by rw [hmem]; exact h2)]
        simp

lemma pyLast_splitOn (sep : Char) (s : List Char) :
    pyLast (splitOn sep s) = afterLast sep s := by
  rw [splitOn, pyLast_splitAux]
  by_cases h : sep ∈ s
  · rw [if_pos h]
  · rw [if_neg h, List.reverse_nil, List.nil_append, afterLast,
      afterLastAux_of_not_mem sep _ (by simpa using h), List.reverse_reverse]

/-- `ext_from_url` either signals absence or returns a string starting with
`'.'`. -/
lemma ext_from_url_shape (url : List Char) :
    ext_from_url url = none ∨ ∃ t, ext_from_url url = some ('.' :: t) := by
  rw [ext_from_url]
  split
  · right; exact ⟨_, rfl⟩
  · left; rfl

/-! ## Lemmas: cleanup -/

lemma cleanup_self (fs : List Char → Bool) (name : List Char) :
    cleanup fs name name = false := by
  rw [cleanup]
  cases h : fs name with
  | false => simp [h]
  | true => simp [h]

lemma cleanup_other (fs : List Char → Bool) (name f : List Char) (h : f ≠ name) :
    cleanup fs name f = fs f := by
  rw [cleanup]
  cases hfs : fs name with
  | false => simp [hfs]
  | true => simp [hfs, h]

lemma cleanup_absent (fs : List Char → Bool) (name : List Char) (h : fs name = false) :
    cleanup fs name = fs := by
  rw [cleanup, h]
  simp

lemma cleanup_idem (fs : List Char → Bool) (name : List Char) :
    cleanup (cleanup fs name) name = cleanup fs name :=
  cleanup_absent (cleanup fs name) name (cleanup_self fs name)

/-! ## Claims -/

/-- C1, counterexample. The input `[1, -1]` is a non-empty even-length integer
sequence with at least one positive value (`1`, at index 0), yet the Output
Normalizer returns no sequence at all: the only retained (odd-indexed) value
is `-1`, the tracked maximum stays `0`, and the rescaling division raises. -/
theorem C1_counterexample : process_waveform_output [1, -1] = none := by decide

/-- C1 (amended): for every non-empty even-length integer sequence whose
odd-indexed values are all nonnegative and include at least one strictly
positive value, the Output Normalizer returns a sequence of length
`⌊n / 2⌋` that contains the value `1` (so its maximum is exactly `1.0`) and
whose elements all lie in `[0, 1]`. -/
theorem C1_normalizer_bounds (data : List ℤ) (hne : data ≠ [])
    (hev : data.length % 2 = 0) (hnn : allNonneg (oddIndexed data))
    (hpos : hasPos (oddIndexed data)) :
    ∃ out, process_waveform_output data = some out
      ∧ out.length = data.length / 2
      ∧ (1 : ℚ) ∈ out
      ∧ ∀ x ∈ out, 0 ≤ x ∧ x ≤ 1 := by
  obtain ⟨p, hpmem, hp⟩ := hpos
  have hub : ∀ v ∈ oddIndexed data, v ≤ (oddIndexed data).foldl max 0 :=
    fun v hv => mem_le_foldl_max _ 0 v hv
  have hMpos : 0 < (oddIndexed data).foldl max 0 := lt_of_lt_of_le hp (hub p hpmem)
  have hmem : (oddIndexed data).foldl max 0 ∈ oddIndexed data := by
    rcases foldl_max_choice (oddIndexed data) 0 with h | h
    · omega
    · exact h
  refine ⟨rescale ((oddIndexed data).foldl max 0) (oddIndexed data),
    process_of_max hmem hub hMpos, ?_, ?_, ?_⟩
  · rw [rescale, List.length_map, oddIndexed_length]
  · rw [rescale]
    refine List.mem_map.mpr ⟨_, hmem, ?_⟩
    have hM0 : (((oddIndexed data).foldl max 0 : ℤ) : ℚ) ≠ 0 :=
      Int.cast_ne_zero.mpr hMpos.ne'
    rw [div_self hM0]
    exact round5_one
  · intro x hx
    rw [rescale] at hx
    obtain ⟨v, hv, rfl⟩ := List.mem_map.mp hx
    have h0v : 0 ≤ v := hnn v hv
    have hvM : v ≤ (oddIndexed data).foldl max 0 := hub v hv
    have hMq : (0 : ℚ) < (((oddIndexed data).foldl max 0 : ℤ) : ℚ) := by
      exact_mod_cast hMpos
    have hq0 : 0 ≤ (v : ℚ) / (((oddIndexed data).foldl max 0 : ℤ) : ℚ) :=
      div_nonneg (by exact_mod_cast h0v) hMq.le
    have hq1 : (v : ℚ) / (((oddIndexed data).foldl max 0 : ℤ) : ℚ) ≤ 1 :=
      div_le_one_of_le₀ (by exact_mod_cast hvM) hMq.le
    exact ⟨round5_nonneg hq0, round5_le_one hq1⟩

/-- C1, witness: the amended theorem applied to the concrete input `[0, 5]`. -/
theorem C1_witness :
    ([0, 5] : List ℤ) ≠ [] ∧ ([0, 5] : List ℤ).length % 2 = 0
      ∧ allNonneg (oddIndexed [0, 5]) ∧ hasPos (oddIndexed [0, 5])
      ∧ ∃ out, process_waveform_output [0, 5] = some out
          ∧ out.length = ([0, 5] : List ℤ).length / 2
          ∧ (1 : ℚ) ∈ out ∧ ∀ x ∈ out, 0 ≤ x ∧ x ≤ 1 :=
  ⟨by decide, by decide, by decide, by decide,
    C1_normalizer_bounds [0, 5] (by decide) (by decide) (by decide) (by decide)⟩

/-- C2: the Output Normalizer retains exactly the odd-indexed entries and,
whenever the maximum retained value `M` is positive, rescales each retained
value by `M` rounded to 5 decimal digits; in particular on
`[5, 10, 3, 8, 1, 2]` it retains `[10, 8, 2]`, the maximum is `10`, and the
output is `[1.0, 0.8, 0.2]`. -/
theorem C2_normalizer_rescale :
    (∀ (data : List ℤ) (M : ℤ), isMaxOf M (oddIndexed data) → 0 < M →
        process_waveform_output data = some (rescale M (oddIndexed data)))
      ∧ oddIndexed [5, 10, 3, 8, 1, 2] = [10, 8, 2]
      ∧ process_waveform_output [5, 10, 3, 8, 1, 2] = some [1, 4/5, 1/5] := by
  refine ⟨fun data M hmax hpos => process_of_max hmax.1 hmax.2 hpos, by decide, ?_⟩
  have h := @process_of_max [5, 10, 3, 8, 1, 2] 10 (by decide) (by decide) (by decide)
  rw [h]
  have hodd : oddIndexed [5, 10, 3, 8, 1, 2] = [10, 8, 2] := by decide
  rw [hodd, rescale]
  simp only [List.map_cons, List.map_nil]
  have e1 : (((10 : ℤ) : ℚ) / ((10 : ℤ) : ℚ)) = 1 := by norm_num
  have e2 : round5 (((8 : ℤ) : ℚ) / ((10 : ℤ) : ℚ)) = 4/5 := by
    rw [round5_eq_of_mul _ 80000 (by push_cast; norm_num)]
    norm_num
  have e3 : round5 (((2 : ℤ) : ℚ) / ((10 : ℤ) : ℚ)) = 1/5 := by
    rw [round5_eq_of_mul _ 20000 (by push_cast; norm_num)]
    norm_num
  rw [e1, round5_one, e2, e3]

/-- C2, witness: the general part of the theorem applied to the concrete
scenario from the spec. -/
theorem C2_witness :
    isMaxOf 10 (oddIndexed [5, 10, 3, 8, 1, 2]) ∧ (0 : ℤ) < 10
      ∧ process_waveform_output [5, 10, 3, 8, 1, 2]
          = some (rescale 10 (oddIndexed [5, 10, 3, 8, 1, 2])) :=
  ⟨by decide, by decide,
    C2_normalizer_rescale.1 [5, 10, 3, 8, 1, 2] 10 (by decide) (by decide)⟩

/-- C9: the Output Normalizer is deterministic — equal parsed inputs yield
equal outputs (it is a pure function of the `data` array). -/
theorem C9_normalizer_deterministic (d1 d2 : List ℤ) (h : d1 = d2) :
    process_waveform_output d1 = process_waveform_output d2 := by
  rw [h]

/-- C9, witness: determinism at the concrete input `[1, 2]`. -/
theorem C9_witness :
    ([1, 2] : List ℤ) = [1, 2]
      ∧ process_waveform_output [1, 2] = process_waveform_output [1, 2] :=
  ⟨rfl, C9_normalizer_deterministic [1, 2] [1, 2] rfl⟩

/-- C3: for every URL, if the final path segment (the substring after the
last `/`) contains a `.`, the Extension Resolver returns the substring after
the last `.` prefixed with `.`; otherwise it returns `none`. -/
theorem C3_ext_from_url (url : List Char) :
    ('.' ∈ afterLast '/' url →
        ext_from_url url = some ('.' :: afterLast '.' (afterLast '/' url)))
      ∧ ('.' ∉ afterLast '/' url → ext_from_url url = none) := by
  have hfile := pyLast_splitOn '/' url
  constructor
  · intro hdot
    rw [ext_from_url, hfile, if_pos hdot, pyLast_splitOn]
  · intro hdot
    rw [ext_from_url, hfile, if_neg hdot]

/-- C3, witness: the resolver applied to the concrete URL `a/b.ogg`. -/
theorem C3_witness :
    '.' ∈ afterLast '/' ("a/b.ogg".toList)
      ∧ ext_from_url ("a/b.ogg".toList)
          = some ('.' :: afterLast '.' (afterLast '/' ("a/b.ogg".toList))) :=
  ⟨by decide, (C3_ext_from_url ("a/b.ogg".toList)).1 (by decide)⟩

/-- C4: whenever an extension `e` is determinable — from the URL, or, the URL
yielding none, from the MIME-type guess — the Downloader produces the file
name `audio-<identifier><e>`; in particular URL
`https://example.com/sound.mp3` with identifier `abc123` yields
`audio-abc123.mp3`. -/
theorem C4_download_file_name :
    (∀ (url identifier : List Char) (guessed : Option (List Char)) (e : List Char),
        (ext_from_url url = some e ∨ (ext_from_url url = none ∧ guessed = some e)) →
        download_audio url identifier guessed
          = some ("audio-".toList ++ identifier ++ e))
      ∧ download_audio "https://example.com/sound.mp3".toList "abc123".toList none
          = some "audio-abc123.mp3".toList := by
  constructor
  · rintro url identifier guessed e (h | ⟨h1, h2⟩)
    · have he : e ≠ [] := by
        rcases ext_from_url_shape url with hn | ⟨t, ht⟩
        · rw [hn] at h; cases h
        · have h3 := Option.some.inj (ht.symm.trans h)
          rw [← h3]
          exact List.cons_ne_nil '.' t
      rw [download_audio, pyOr, h]
      have hf : pyFalsy (some e) = false := by
        cases e with
        | nil => exact absurd rfl he
        | cons c cs => rfl
      rw [hf]
      simp
    · rw [download_audio, pyOr, h1, h2]
      simp [pyFalsy]
  · decide

/-- C4, witness: the general part applied to the URL `a/song.ogg` with
identifier `xyz`. -/
theorem C4_witness :
    ext_from_url "a/song.ogg".toList = some ".ogg".toList
      ∧ download_audio "a/song.ogg".toList "xyz".toList none
          = some ("audio-".toList ++ "xyz".toList ++ ".ogg".toList) :=
  ⟨by decide, C4_download_file_name.1 _ _ _ _ (Or.inl (by decide))⟩

/-- C5: the Downloader fails (raises, and hence produces no file) exactly
when the Extension Resolver returns `none` and the MIME-type guess also
yields no extension. -/
theorem C5_download_error_iff (url identifier : List Char)
    (guessed : Option (List Char)) :
    download_audio url identifier guessed = none
      ↔ (ext_from_url url = none ∧ guessed = none) := by
  rcases ext_from_url_shape url with hn | ⟨t, ht⟩
  · rw [download_audio, pyOr, hn]
    cases guessed with
    | none => simp [pyFalsy]
    | some g => simp [pyFalsy]
  · rw [download_audio, pyOr, ht]
    simp [pyFalsy, ht]

/-- Positivity of the sample duration, used by the C6 witness. -/
lemma ten_pos : (0 : ℚ) < 10 := by norm_num

/-- C6: for positive durations the Waveform Invoker's sampling density is the
ceiling of `1,000,000 / duration` (characterized by the two inequalities),
it is passed as a decimal string in the seventh argument-vector slot, and
duration 10 yields 100000. -/
theorem C6_pixels_per_second (file_name : List Char) (d : ℚ) (hd : 0 < d) :
    (1000000 / d ≤ (generate_waveform_pps d : ℚ)
        ∧ (generate_waveform_pps d : ℚ) < 1000000 / d + 1)
      ∧ generate_waveform_args file_name d
          = ["audiowaveform".toList, "--input-filename".toList, file_name,
             "--output-format".toList, "json".toList,
             "--pixels-per-second".toList,
             (toString (generate_waveform_pps d)).toList]
      ∧ generate_waveform_pps 10 = 100000
      ∧ (toString (generate_waveform_pps 10)).toList = "100000".toList := by
  have h10 : generate_waveform_pps 10 = 100000 := by
    rw [generate_waveform_pps, ratCeil_eq]
    rw [show (1000000 : ℚ) / 10 = ((100000 : ℤ) : ℚ) from by norm_num]
    exact Int.ceil_intCast 100000
  refine ⟨⟨?_, ?_⟩, rfl, h10, ?_⟩
  · rw [generate_waveform_pps, ratCeil_eq]
    exact Int.le_ceil _
  · rw [generate_waveform_pps, ratCeil_eq]
    exact Int.ceil_lt_add_one _
  · rw [h10]
    decide

/-- C6, witness: the theorem applied at duration 10. -/
theorem C6_witness :
    (0 : ℚ) < 10 ∧ generate_waveform_pps 10 = 100000 :=
  ⟨ten_pos, (C6_pixels_per_second [] 10 ten_pos).2.2.1⟩

/-- C7, counterexample. On the empty `data` array every retained (odd-indexed)
sample is zero vacuously — the retained list is empty — yet the Output
Normalizer does return a result, the empty list, because no division is
attempted. -/
theorem C7_counterexample :
    oddIndexed ([] : List ℤ) = [] ∧ process_waveform_output ([] : List ℤ) = some [] := by
  decide

/-- C7 (amended): when the `data` array has at least two entries (so at least
one sample is retained) and every retained (odd-indexed) sample is zero, the
Output Normalizer returns no result: the rescaling divides by zero and the
error propagates. -/
theorem C7_degenerate_zero (data : List ℤ) (hlen : 2 ≤ data.length)
    (hz : allZero (oddIndexed data)) :
    process_waveform_output data = none := by
  rw [process_none_iff]
  have hlen2 := oddIndexed_length data
  refine ⟨?_, ?_⟩
  · intro h
    rw [h] at hlen2
    simp at hlen2
    omega
  · intro v hv
    exact le_of_eq (hz v hv)

/-- C7, witness: the amended theorem applied to the concrete input `[5, 0]`. -/
theorem C7_witness :
    2 ≤ ([5, 0] : List ℤ).length ∧ allZero (oddIndexed [5, 0])
      ∧ process_waveform_output [5, 0] = none :=
  ⟨by decide, by decide, C7_degenerate_zero [5, 0] (by decide) (by decide)⟩

/-- C8: Cleanup deletes the file when it exists (afterwards the name no
longer exists), leaves every other file untouched, is a no-op when the file
is absent, and a second call on the same name is a no-op on the resulting
state. -/
theorem C8_cleanup_idempotent (fs : List Char → Bool) (name : List Char) :
    cleanup fs name name = false
      ∧ (∀ f, f ≠ name → cleanup fs name f = fs f)
      ∧ (fs name = false → cleanup fs name = fs)
      ∧ cleanup (cleanup fs name) name = cleanup fs name :=
  ⟨cleanup_self fs name, fun f hf => cleanup_other fs name f hf,
    fun h => cleanup_absent fs name h, cleanup_idem fs name⟩

/-- C8, witness: the theorem applied to a concrete filesystem on which the
sample file exists and another name does not. -/
theorem C8_witness :
    sampleFS sampleName = true
      ∧ cleanup sampleFS sampleName sampleName = false
      ∧ cleanup (cleanup sampleFS sampleName) sampleName = cleanup sampleFS sampleName
      ∧ sampleFS missingName = false
      ∧ cleanup sampleFS missingName = sampleFS
      ∧ missingName ≠ sampleName
      ∧ cleanup sampleFS sampleName missingName = sampleFS missingName :=
  ⟨by decide, (C8_cleanup_idempotent sampleFS sampleName).1,
    (C8_cleanup_idempotent sampleFS sampleName).2.2.2, by decide,
    (C8_cleanup_idempotent sampleFS missingName).2.2.1 (by decide), by decide,
    (C8_cleanup_idempotent sampleFS sampleName).2.1 missingName (by decide)⟩

/-- C10, counterexample. On `data = [7]` no retained (odd-indexed) sample is
strictly positive — there are no retained samples — yet no division-by-zero
failure occurs: the Output Normalizer returns the empty list. -/
theorem C10_counterexample :
    oddIndexed [7] = [] ∧ process_waveform_output [7] = some [] := by
  decide

/-- C10 (amended): the Output Normalizer's division-by-zero failure occurs
exactly when the retained (odd-indexed) list is non-empty and contains no
strictly positive sample — including all-negative retained samples — because
the tracked maximum starts at 0 and only increases on strictly greater
values; conversely, with at least one positive retained sample a result is
returned. -/
theorem C10_failure_iff (data : List ℤ) :
    process_waveform_output data = none
      ↔ (oddIndexed data ≠ [] ∧ ∀ v ∈ oddIndexed data, v ≤ 0) :=
  process_none_iff data

end Waveform
